import Mathlib

/-!
# Verification of the pandas split-apply-combine engine (`pandas/core/groupby.py`)

This file gives a shallow embedding of the grouping engine of
`pandas/core/groupby.py` and proves the behavioural claims of the
specification against it.

Modelling conventions:
* a per-row integer code array (`labels`) is a `List Int`, with `-1` meaning
  "missing / no group", exactly as in the source;
* key values are embedded as `Int` (the source sorts arbitrary hashable
  values; only their linear order matters here);
* `np.lexsort` / `ndarray.argsort` are modelled by a stable comparison sort
  (`List.insertionSort`), which matches the stable `np.lexsort` and agrees
  with any correct sort on the distinct inputs the code feeds to `argsort`;
* fallible code returns `Except`;
* functions belonging to the repository but living outside the provided
  source (the `pandas._tseries` C kernels) are modelled from the spec and
  marked `Modelled from the spec:` in their doc comment.
-/

/-! ## Lexicographic order on code tuples (`_group_reorder`)

`_group_reorder` computes `indexer = np.lexsort(label_list[::-1])`: rows are
sorted by their tuples of per-key codes with key 0 most significant
(`np.lexsort` uses its *last* key as the primary key, and the list is
reversed).  We model the comparison on the full code tuple of a row. -/

/-- Lexicographic comparison of two code tuples, head (key 0) most
significant.  This is the row order realised by
`np.lexsort(label_list[::-1])` in `_group_reorder`. -/
def lexLe : List Int → List Int → Bool
  | [], _ => true
  | _ :: _, [] => false
  | a :: as, b :: bs => decide (a < b) || (a == b && lexLe as bs)

/-- The tuple of per-key codes of row `i`: one entry per grouping, key 0
first (`label_list` stacked column-wise, as `np.lexsort` consumes it). -/
def rowCodes (label_list : List (List Int)) (i : Nat) : List Int :=
  label_list.map (fun labels => labels.getD i 0)

/-- `indexer = np.lexsort(label_list[::-1])` from `_group_reorder`: the
permutation of the row positions `0..n-1` that sorts rows by their code
tuples, key 0 most significant (stable, like `np.lexsort`). -/
def lexsortIndexer (label_list : List (List Int)) (n : Nat) : List Nat :=
  List.insertionSort
    (fun i j => lexLe (rowCodes label_list i) (rowCodes label_list j) = true)
    (List.range n)

/-- `sorted_labels = [labels.take(indexer) for labels in label_list]` from
`_group_reorder` (numpy `take` = gather by the index array). -/
def groupReorderLabels (label_list : List (List Int)) (n : Nat) : List (List Int) :=
  label_list.map
    (fun labels => (lexsortIndexer label_list n).map (fun i => labels.getD i 0))

theorem lexLe_total (a b : List Int) : lexLe a b = true ∨ lexLe b a = true := by
  induction a generalizing b with
  | nil => left; simp [lexLe]
  | cons x as ih =>
    cases b with
    | nil => right; simp [lexLe]
    | cons y bs =>
      simp only [lexLe, Bool.or_eq_true, decide_eq_true_eq, Bool.and_eq_true,
        beq_iff_eq]
      rcases lt_trichotomy x y with h | h | h
      · exact Or.inl (Or.inl h)
      · subst h
        rcases ih bs with h1 | h1
        · exact Or.inl (Or.inr ⟨rfl, h1⟩)
        · exact Or.inr (Or.inr ⟨rfl, h1⟩)
      · exact Or.inr (Or.inl h)

theorem lexLe_trans (a b c : List Int) (hab : lexLe a b = true)
    (hbc : lexLe b c = true) : lexLe a c = true := by
  induction a generalizing b c with
  | nil => simp [lexLe]
  | cons x as ih =>
    cases b with
    | nil => simp [lexLe] at hab
    | cons y bs =>
      cases c with
      | nil => simp [lexLe] at hbc
      | cons z cs =>
        simp only [lexLe, Bool.or_eq_true, decide_eq_true_eq, Bool.and_eq_true,
          beq_iff_eq] at hab hbc ⊢
        rcases hab with h1 | ⟨h1, hab'⟩
        · rcases hbc with h2 | ⟨h2, _⟩
          · exact Or.inl (lt_trans h1 h2)
          · exact Or.inl (h2 ▸ h1)
        · subst h1
          rcases hbc with h2 | ⟨h2, hbc'⟩
          · exact Or.inl h2
          · exact Or.inr ⟨h2, ih bs cs hab' hbc'⟩

/-- Sandwich lemma: in the lexicographic order, a row between two rows that
agree on their first `m` codes also agrees with them on its first `m`
codes.  This is what makes every key-level `take m` class contiguous after
sorting. -/
theorem lexLe_take_sandwich (m : Nat) :
    ∀ a b c : List Int, lexLe a b = true → lexLe b c = true →
      a.take m = c.take m → b.take m = a.take m := by
  induction m with
  | zero => intro a b c _ _ _; simp
  | succ m ih =>
    intro a b c hab hbc hac
    cases a with
    | nil =>
      have hc : c = [] := by
        cases c with
        | nil => rfl
        | cons z cs => simp at hac
      subst hc
      cases b with
      | nil => rfl
      | cons y bs => simp [lexLe] at hbc
    | cons x as =>
      cases c with
      | nil => simp at hac
      | cons z cs =>
        simp only [List.take_succ_cons, List.cons.injEq] at hac
        obtain ⟨hxz, hac'⟩ := hac
        subst hxz
        cases b with
        | nil => simp [lexLe] at hab
        | cons y bs =>
          simp only [lexLe, Bool.or_eq_true, decide_eq_true_eq,
            Bool.and_eq_true, beq_iff_eq] at hab hbc
          rcases hab with h1 | ⟨h1, hab'⟩
          · rcases hbc with h2 | ⟨h2, _⟩
            · exact absurd (lt_trans h1 h2) (lt_irrefl x)
            · exact absurd h1 (by rw [h2]; exact lt_irrefl x)
          · subst h1
            rcases hbc with h2 | ⟨_, hbc'⟩
            · exact absurd h2 (lt_irrefl _)
            · have hb := ih as bs cs hab' hbc' hac'
              simp only [List.take_succ_cons, hb]

theorem length_lexsortIndexer (label_list : List (List Int)) (n : Nat) :
    (lexsortIndexer label_list n).length = n := by
  unfold lexsortIndexer
  rw [List.length_insertionSort, List.length_range]

theorem lexsortIndexer_perm (label_list : List (List Int)) (n : Nat) :
    (lexsortIndexer label_list n).Perm (List.range n) :=
  List.perm_insertionSort _ _

theorem lexsortIndexer_sorted (label_list : List (List Int)) (n : Nat) :
    List.Pairwise
      (fun i j => lexLe (rowCodes label_list i) (rowCodes label_list j) = true)
      (lexsortIndexer label_list n) := by
  haveI : IsTotal Nat
      (fun i j => lexLe (rowCodes label_list i) (rowCodes label_list j) = true) :=
    ⟨fun i j => lexLe_total _ _⟩
  haveI : IsTrans Nat
      (fun i j => lexLe (rowCodes label_list i) (rowCodes label_list j) = true) :=
    ⟨fun i j k => lexLe_trans _ _ _⟩
  exact List.sorted_insertionSort _ _

/-- After `_group_reorder`, the code tuple of output row `j` is the code
tuple of input row `indexer[j]`. -/
theorem rowCodes_groupReorderLabels (label_list : List (List Int)) (n : Nat)
    (j : Nat) (hj : j < n) :
    rowCodes (groupReorderLabels label_list n) j
      = rowCodes label_list ((lexsortIndexer label_list n).getD j 0) := by
  have hlen : (lexsortIndexer label_list n).length = n :=
    length_lexsortIndexer label_list n
  unfold rowCodes groupReorderLabels
  rw [List.map_map]
  apply List.map_congr_left
  intro labels _
  simp only [Function.comp_apply]
  rw [List.getD_eq_getElem _ _ (by rw [List.length_map, hlen]; exact hj),
    List.getElem_map]
  congr 1
  rw [List.getD_eq_getElem _ _
    (show j < (lexsortIndexer label_list n).length by rw [hlen]; exact hj)]

theorem lexsortIndexer_getD_lexLe (label_list : List (List Int)) (n : Nat)
    (i j : Nat) (hij : i < j) (hj : j < n) :
    lexLe (rowCodes label_list ((lexsortIndexer label_list n).getD i 0))
      (rowCodes label_list ((lexsortIndexer label_list n).getD j 0)) = true := by
  have hlen := length_lexsortIndexer label_list n
  have hi' : i < (lexsortIndexer label_list n).length := by
    rw [hlen]; exact lt_of_lt_of_le hij (le_of_lt hj)
  have hj' : j < (lexsortIndexer label_list n).length := by rw [hlen]; exact hj
  have hs := lexsortIndexer_sorted label_list n
  rw [List.pairwise_iff_getElem] at hs
  have h := hs i j hi' hj' hij
  rwa [List.getD_eq_getElem _ _ hi', List.getD_eq_getElem _ _ hj']

/-- C1: for every list of `k` groupings over the same axis (stacked as
`label_list`, one code array per key, all over rows `0..n-1`), the
multi-key indexer (`_group_reorder`) computes a lexicographic sort
permutation over the stacked labels arrays with key 0 most significant:
the indexer is a permutation of the row positions, the reordered code
tuples are lexicographically sorted, and after reordering the data by the
permutation every key-level `take m` class of rows (rows matching one
prefix of codes) forms one contiguous range, with `(m+1)`-level child
classes nested inside `m`-level parent classes. -/
theorem C1_multikey_lexsort_contiguous (label_list : List (List Int)) (n : Nat) :
    (lexsortIndexer label_list n).Perm (List.range n)
    ∧ List.Pairwise (fun a b => lexLe a b = true)
        ((lexsortIndexer label_list n).map (rowCodes label_list))
    ∧ (∀ m i j k : Nat, i ≤ j → j ≤ k → k < n →
        (rowCodes (groupReorderLabels label_list n) i).take m
          = (rowCodes (groupReorderLabels label_list n) k).take m →
        (rowCodes (groupReorderLabels label_list n) j).take m
          = (rowCodes (groupReorderLabels label_list n) i).take m)
    ∧ (∀ m i j : Nat,
        (rowCodes (groupReorderLabels label_list n) i).take (m + 1)
          = (rowCodes (groupReorderLabels label_list n) j).take (m + 1) →
        (rowCodes (groupReorderLabels label_list n) i).take m
          = (rowCodes (groupReorderLabels label_list n) j).take m) := by
  refine ⟨lexsortIndexer_perm _ _, ?_, ?_, ?_⟩
  · exact (lexsortIndexer_sorted label_list n).map _ (fun a b h => h)
  · intro m i j k hij hjk hkn hik
    have hin : i < n := lt_of_le_of_lt (le_trans hij hjk) hkn
    have hjn : j < n := lt_of_le_of_lt hjk hkn
    rcases eq_or_lt_of_le hij with rfl | hij'
    · rfl
    rcases eq_or_lt_of_le hjk with rfl | hjk'
    · exact hik.symm
    rw [rowCodes_groupReorderLabels label_list n i hin,
      rowCodes_groupReorderLabels label_list n k hkn] at hik
    rw [rowCodes_groupReorderLabels label_list n i hin,
      rowCodes_groupReorderLabels label_list n j hjn]
    exact lexLe_take_sandwich m _ _ _
      (lexsortIndexer_getD_lexLe label_list n i j hij' hjn)
      (lexsortIndexer_getD_lexLe label_list n j k hjk' hkn) hik
  · intro m i j hik
    have h1 : ∀ t : Nat,
        (rowCodes (groupReorderLabels label_list n) t).take m
          = ((rowCodes (groupReorderLabels label_list n) t).take (m + 1)).take m := by
      intro t
      rw [List.take_take, min_eq_left (Nat.le_succ m)]
    rw [h1 i, h1 j, hik]

/-- Witness for C1 at a concrete two-key input: rows with code tuples
`(1,0), (0,1), (1,0)`. -/
theorem C1_multikey_lexsort_contiguous_witness :
    (lexsortIndexer [[1, 0, 1], [0, 1, 0]] 3).Perm (List.range 3)
    ∧ (rowCodes (groupReorderLabels [[1, 0, 1], [0, 1, 0]] 3) 2).take 1
        = (rowCodes (groupReorderLabels [[1, 0, 1], [0, 1, 0]] 3) 1).take 1 := by
  refine ⟨(C1_multikey_lexsort_contiguous [[1, 0, 1], [0, 1, 0]] 3).1, ?_⟩
  exact (C1_multikey_lexsort_contiguous [[1, 0, 1], [0, 1, 0]] 3).2.2.1 1 1 2 2
    (by decide) (by decide) (by decide) (by decide)

/-! ## `sort_group_labels` (LabelSort)

`sort_group_labels(ids, labels, counts)` renumbers group codes so that the
codes walk the distinct key values in ascending order.  The `{code -> key
value}` dict over codes `0..n-1` is embedded as a `List Int` indexed by
code. -/

/-- `indexer = values.argsort()` from `sort_group_labels`, computed on the
distinct key values `ids` (ties broken by position, which is irrelevant on
the deduplicated values the source feeds in). -/
def argsortIds (ids : List Int) : List Nat :=
  List.insertionSort
    (fun i j => ids.getD i 0 < ids.getD j 0 ∨ (ids.getD i 0 = ids.getD j 0 ∧ i ≤ j))
    (List.range ids.length)

/-- `sort_group_labels(ids, labels, counts)`: `new_ids` walks the key values
in ascending order (`values.take(indexer)`), `new_labels` remaps each old
code through `reverse_indexer` (with `np.putmask` keeping `-1` at `-1`),
and `new_counts = counts.take(indexer)`. -/
def sort_group_labels (ids : List Int) (labels : List Int) (counts : List Nat) :
    List Int × List Int × List Nat :=
  let indexer := argsortIds ids
  let new_ids := indexer.map (fun i => ids.getD i 0)
  let new_labels := labels.map (fun l =>
    if l = -1 then -1 else ((indexer.indexOf l.toNat : Nat) : Int))
  let new_counts := indexer.map (fun i => counts.getD i 0)
  (new_ids, new_labels, new_counts)

theorem argsortIds_length (ids : List Int) :
    (argsortIds ids).length = ids.length := by
  unfold argsortIds
  rw [List.length_insertionSort, List.length_range]

theorem argsortIds_perm (ids : List Int) :
    (argsortIds ids).Perm (List.range ids.length) :=
  List.perm_insertionSort _ _

theorem argsortIds_mem (ids : List Int) (c : Nat) (hc : c < ids.length) :
    c ∈ argsortIds ids :=
  ((argsortIds_perm ids).mem_iff).mpr (List.mem_range.mpr hc)

theorem argsortIds_sorted (ids : List Int) :
    List.Pairwise
      (fun i j => ids.getD i 0 < ids.getD j 0
        ∨ (ids.getD i 0 = ids.getD j 0 ∧ i ≤ j))
      (argsortIds ids) := by
  haveI : IsTotal Nat
      (fun i j => ids.getD i 0 < ids.getD j 0
        ∨ (ids.getD i 0 = ids.getD j 0 ∧ i ≤ j)) := by
    constructor
    intro i j
    rcases lt_trichotomy (ids.getD i 0) (ids.getD j 0) with h | h | h
    · exact Or.inl (Or.inl h)
    · rcases Nat.le_total i j with h' | h'
      · exact Or.inl (Or.inr ⟨h, h'⟩)
      · exact Or.inr (Or.inr ⟨h.symm, h'⟩)
    · exact Or.inr (Or.inl h)
  haveI : IsTrans Nat
      (fun i j => ids.getD i 0 < ids.getD j 0
        ∨ (ids.getD i 0 = ids.getD j 0 ∧ i ≤ j)) := by
    constructor
    intro i j k hij hjk
    rcases hij with h1 | ⟨h1, h1'⟩
    · rcases hjk with h2 | ⟨h2, _⟩
      · exact Or.inl (lt_trans h1 h2)
      · exact Or.inl (h2 ▸ h1)
    · rcases hjk with h2 | ⟨h2, h2'⟩
      · exact Or.inl (h1 ▸ h2)
      · exact Or.inr ⟨h1.trans h2, le_trans h1' h2'⟩
  exact List.sorted_insertionSort _ _

/-- Gathering a full list back through `List.range` is the identity. -/
theorem map_getD_range (l : List Int) (d : Int) :
    (List.range l.length).map (fun i => l.getD i d) = l := by
  apply List.ext_getElem
  · rw [List.length_map, List.length_range]
  · intro n h1 h2
    rw [List.getElem_map, List.getElem_range,
      List.getD_eq_getElem _ _ h2]

theorem map_getD_range_nat (l : List Nat) (d : Nat) :
    (List.range l.length).map (fun i => l.getD i d) = l := by
  apply List.ext_getElem
  · rw [List.length_map, List.length_range]
  · intro n h1 h2
    rw [List.getElem_map, List.getElem_range,
      List.getD_eq_getElem _ _ h2]

theorem map_getD_argsort_indexOf {α : Type} (ids : List Int) (f : Nat → α)
    (d : α) (c : Nat) (hc : c < ids.length) :
    ((argsortIds ids).map f).getD ((argsortIds ids).indexOf c) d = f c := by
  have hmem : c ∈ argsortIds ids := argsortIds_mem ids c hc
  have hlt : (argsortIds ids).indexOf c < (argsortIds ids).length :=
    List.indexOf_lt_length.mpr hmem
  rw [List.getD_eq_getElem _ _ (by rw [List.length_map]; exact hlt),
    List.getElem_map]
  congr 1
  exact List.getElem_indexOf hlt

/-- C2: `sort_group_labels` renumbers the codes of a `{code -> key value}`
mapping (embedded as the list `ids`, position = code) so that iterating
codes `0..k-1` yields the key values in ascending sorted order over the
same value set; the new `ids` has as many entries as there are distinct
non-missing key values among the rows; the remapped `labels` keeps every
`-1` at `-1` and maps every non-missing entry to a code carrying the same
key value as before; and `counts` is reordered by the same permutation as
the key values. -/
theorem C2_sort_group_labels_correct (ids labels : List Int) (counts : List Nat)
    (hnodup : ids.Nodup)
    (hlab : ∀ l ∈ labels, l = -1 ∨ (0 ≤ l ∧ l.toNat < ids.length))
    (hcover : ∀ c : Nat, c < ids.length → (c : Int) ∈ labels) :
    List.Pairwise (· ≤ ·) (sort_group_labels ids labels counts).1
    ∧ (sort_group_labels ids labels counts).1.Perm ids
    ∧ (sort_group_labels ids labels counts).1.length
        = ((labels.filter (fun l => l != -1)).map
            (fun l => ids.getD l.toNat 0)).dedup.length
    ∧ (∀ i : Nat, i < labels.length → labels.getD i 0 = -1 →
        (sort_group_labels ids labels counts).2.1.getD i 0 = -1)
    ∧ (∀ i : Nat, i < labels.length → 0 ≤ labels.getD i 0 →
        (sort_group_labels ids labels counts).1.getD
            ((sort_group_labels ids labels counts).2.1.getD i 0).toNat 0
          = ids.getD (labels.getD i 0).toNat 0)
    ∧ (∀ c : Nat, c < ids.length →
        (sort_group_labels ids labels counts).1.getD
            ((argsortIds ids).indexOf c) 0 = ids.getD c 0
          ∧ (sort_group_labels ids labels counts).2.2.getD
            ((argsortIds ids).indexOf c) 0 = counts.getD c 0) := by
  simp only [sort_group_labels]
  refine ⟨?_, ?_, ?_, ?_, ?_, ?_⟩
  · apply (argsortIds_sorted ids).map
    intro a b hab
    rcases hab with h | ⟨h, _⟩
    · exact le_of_lt h
    · exact le_of_eq h
  · have h1 := (argsortIds_perm ids).map (fun i => ids.getD i 0)
    rw [map_getD_range ids 0] at h1
    exact h1
  · have hfin : ((labels.filter (fun l => l != -1)).map
        (fun l => ids.getD l.toNat 0)).toFinset = ids.toFinset := by
      apply Finset.ext
      intro v
      simp only [List.mem_toFinset, List.mem_map, List.mem_filter, bne_iff_ne,
        ne_eq]
      constructor
      · rintro ⟨l, ⟨hl, hlne⟩, rfl⟩
        rcases hlab l hl with h | ⟨h0, hlt⟩
        · exact absurd h hlne
        · rw [List.getD_eq_getElem _ _ hlt]
          exact List.getElem_mem hlt
      · intro hv
        obtain ⟨c, hc, rfl⟩ := List.mem_iff_getElem.mp hv
        refine ⟨(c : Int), ⟨hcover c hc, by omega⟩, ?_⟩
        rw [Int.toNat_natCast, List.getD_eq_getElem _ _ hc]
    rw [List.length_map, argsortIds_length, ← List.card_toFinset, hfin,
      List.toFinset_card_of_nodup hnodup]
  · intro i hi hneg
    rw [List.getD_eq_getElem _ _ hi] at hneg
    rw [List.getD_eq_getElem _ _ (by rw [List.length_map]; exact hi),
      List.getElem_map, hneg]
    simp
  · intro i hi hpos
    have hmem : labels.getD i 0 ∈ labels := by
      rw [List.getD_eq_getElem _ _ hi]; exact List.getElem_mem hi
    rcases hlab _ hmem with h | ⟨h0, hlt⟩
    · rw [h] at hpos; omega
    · have hne : labels.getD i 0 ≠ -1 := by omega
      have hnew : (labels.map (fun l =>
          if l = -1 then (-1 : Int) else ((argsortIds ids).indexOf l.toNat : Int))).getD i 0
          = ((argsortIds ids).indexOf (labels.getD i 0).toNat : Int) := by
        rw [List.getD_eq_getElem _ _ (by rw [List.length_map]; exact hi),
          List.getElem_map, ← List.getD_eq_getElem labels 0 hi]
        rw [if_neg hne]
      rw [hnew, Int.toNat_natCast]
      exact map_getD_argsort_indexOf ids (fun c => ids.getD c 0) 0 _ hlt
  · intro c hc
    exact ⟨map_getD_argsort_indexOf ids (fun i => ids.getD i 0) 0 c hc,
      map_getD_argsort_indexOf ids (fun i => counts.getD i 0) 0 c hc⟩

/-- Witness for C2 at a concrete input: `ids = [5, 2, 9]` (codes
`0, 1, 2`), `labels = [1, -1, 0, 2, 1]`, `counts = [1, 2, 1]`. -/
theorem C2_sort_group_labels_correct_witness :
    List.Pairwise (· ≤ ·) (sort_group_labels [5, 2, 9] [1, -1, 0, 2, 1] [1, 2, 1]).1
    ∧ (sort_group_labels [5, 2, 9] [1, -1, 0, 2, 1] [1, 2, 1]).2.1.getD 1 0 = -1 := by
  refine ⟨(C2_sort_group_labels_correct [5, 2, 9] [1, -1, 0, 2, 1] [1, 2, 1]
    (by decide) (by decide) (by decide)).1, ?_⟩
  exact (C2_sort_group_labels_correct [5, 2, 9] [1, -1, 0, 2, 1] [1, 2, 1]
    (by decide) (by decide) (by decide)).2.2.2.1 1 (by decide) (by decide)

/-! ## Vectorized aggregation (`_cython_agg_general`, `mean`, `sum`)

`_cython_agg_general` stacks the per-key label arrays, calls the
`_tseries.group_aggregate` kernel per column, ravels `(result, counts)`
over the full flat group-id range and masks out zero-count entries. -/

/-- Row-major flat group id of a code tuple within the group-space `shape`
(the raveled addressing used by `group_aggregate` and by
`result.ravel()` / `counts.ravel()` in `_cython_agg_general`). -/
def ravelIndex (shape : List Nat) (codes : List Int) : Nat :=
  (shape.zip codes).foldl (fun acc sc => acc * sc.1 + sc.2.toNat) 0

/-- A row participates in aggregation only when no key level marks it
missing (`-1`). -/
def rowValid (label_list : List (List Int)) (i : Nat) : Bool :=
  (rowCodes label_list i).all (fun c => decide (0 ≤ c))

/-- The rows (positions into `values`) whose code tuple ravels to flat
group id `g`. -/
def flatGroupRows (label_list : List (List Int)) (n : Nat) (shape : List Nat)
    (g : Nat) : List Nat :=
  ((List.range n).filter (fun i => rowValid label_list i)).filter
    (fun i => ravelIndex shape (rowCodes label_list i) == g)

/-- Modelled from the spec: the `_tseries.group_aggregate` C kernel, which
is not part of the provided source.  Per the spec it "computes a reduced
value per occupied flat group id directly over the contiguous sorted
buffer using the group-space shape, returning `(result, counts)` arrays
over the full (possibly sparse) flat group-id range".  Values are embedded
as `Int`; `how='add'` reduces by sum and `how='mean'` by integer-division
mean (the exact reduced value is irrelevant to the claims, which concern
shape and masking); `counts[g]` counts the rows of flat id `g`; missing
(`-1`) rows are excluded. -/
def group_aggregate (values : List Int) (label_list : List (List Int))
    (shape : List Nat) (how : String) : List Int × List Nat :=
  ((List.range shape.prod).map (fun g =>
      let s := ((flatGroupRows label_list values.length shape g).map
        (fun i => values.getD i 0)).sum
      if how == "mean"
        then s / ((flatGroupRows label_list values.length shape g).length : Int)
        else s),
   (List.range shape.prod).map (fun g =>
      (flatGroupRows label_list values.length shape g).length))

/-- The masking step of `_cython_agg_general`:
`mask = counts.ravel() > 0; output[name] = result[mask]`. -/
def cythonAggMasked (values : List Int) (label_list : List (List Int))
    (shape : List Nat) (how : String) : List Int :=
  let rc := group_aggregate values label_list shape how
  ((rc.1.zip rc.2).filter (fun p => decide (0 < p.2))).map (fun p => p.1)

/-- The flat group ids that survive the `counts > 0` mask: the groups
present in the final aggregated output. -/
def keptFlatIds (values : List Int) (label_list : List (List Int))
    (shape : List Nat) : List Nat :=
  (List.range shape.prod).filter
    (fun g => decide (0 < ((group_aggregate values label_list shape "add").2.getD g 0)))

/-- Modelled from the spec: a `KeyGrouping`'s `ids` is the sorted universe
of distinct key values (`_tseries.group_labels` + `sort_group_labels`). -/
def groupingIds (keys : List Int) : List Int :=
  List.insertionSort (· ≤ ·) keys.dedup

/-- `GroupBy._group_shape = tuple(len(ping.ids) for ping in groupings)`. -/
def groupShape (key_cols : List (List Int)) : List Nat :=
  key_cols.map (fun ks => (groupingIds ks).length)

/-- C3: for every multi-key vectorized aggregation, the `(result, counts)`
arrays returned by the kernel span the full (possibly sparse) flat
group-id range `prod(shape)`, every flat group id with zero count is
masked out of the final output, and in the concrete two-key scenario
`[("x","p"), ("x","q"), ("y","p")]` (encoded `x=0, y=1, p=0, q=1`) the
group-space shape is `(2,2)` and the output keeps exactly the three
occupied cells, omitting the unoccupied `("y","q")` cell (flat id 3). -/
theorem C3_cython_agg_sparse_masked :
    (∀ (values : List Int) (label_list : List (List Int)) (shape : List Nat)
        (how : String),
      (group_aggregate values label_list shape how).1.length = shape.prod
      ∧ (group_aggregate values label_list shape how).2.length = shape.prod
      ∧ ∀ g : Nat, (group_aggregate values label_list shape "add").2.getD g 0 = 0 →
          g ∉ keptFlatIds values label_list shape)
    ∧ groupShape [[0, 0, 1], [0, 1, 0]] = [2, 2]
    ∧ keptFlatIds [10, 20, 30] [[0, 0, 1], [0, 1, 0]] [2, 2] = [0, 1, 2]
    ∧ ravelIndex [2, 2] [1, 1] = 3
    ∧ 3 ∉ keptFlatIds [10, 20, 30] [[0, 0, 1], [0, 1, 0]] [2, 2]
    ∧ cythonAggMasked [10, 20, 30] [[0, 0, 1], [0, 1, 0]] [2, 2] "add"
        = [10, 20, 30] := by
  refine ⟨?_, by decide, by decide, by decide, by decide, by decide⟩
  intro values label_list shape how
  refine ⟨by simp [group_aggregate], by simp [group_aggregate], ?_⟩
  intro g hzero hmem
  unfold keptFlatIds at hmem
  rw [List.mem_filter] at hmem
  rw [hzero] at hmem
  simp at hmem

/-- Witness for C3's quantified part at the concrete scenario input. -/
theorem C3_cython_agg_sparse_masked_witness :
    (group_aggregate [10, 20, 30] [[0, 0, 1], [0, 1, 0]] [2, 2] "add").1.length = 4
    ∧ 3 ∉ keptFlatIds [10, 20, 30] [[0, 0, 1], [0, 1, 0]] [2, 2] := by
  constructor
  · exact (C3_cython_agg_sparse_masked.1 [10, 20, 30] [[0, 0, 1], [0, 1, 0]]
      [2, 2] "add").1
  · exact (C3_cython_agg_sparse_masked.1 [10, 20, 30] [[0, 0, 1], [0, 1, 0]]
      [2, 2] "add").2.2 3 (by decide)

/-- One slice ("column") as iterated by `_iterate_slices`: its name,
whether `np.asarray(obj, dtype=float)` succeeds on it (numeric data), and
its values. -/
structure AggColumn where
  name : Int
  numericOk : Bool
  data : List Int
deriving DecidableEq

/-- The single error the vectorized path can surface to `mean`/`sum`:
when every column fails float conversion, the loop body never assigns
`mask`, and the final `self._wrap_aggregated_output(output, mask)` raises
`NameError` (`mask` referenced before assignment). -/
inductive AggError where
  | nameErr : AggError
deriving DecidableEq

/-- `GroupBy._cython_agg_general(how)`: iterate slices; a column whose
float conversion raises `ValueError` is skipped (`cannot_agg`); every
remaining column is aggregated by the `group_aggregate` kernel, raveled
and masked by `counts > 0`.  When no column survives conversion the
trailing `_wrap_aggregated_output(output, mask)` raises (`mask` is
unbound), which is the exception `sum` recovers from. -/
def cython_agg_general (how : String) (cols : List AggColumn)
    (label_list : List (List Int)) (shape : List Nat) :
    Except AggError (List (Int × List Int)) :=
  let processed := cols.filter (fun c => c.numericOk)
  if processed.isEmpty then .error .nameErr
  else .ok (processed.map
    (fun c => (c.name, cythonAggMasked c.data label_list shape how)))

/-- Modelled from the spec: the generic Python-level aggregation
`self.aggregate(np.sum)` that `sum` falls back to — group-by-group sums
per column over the occupied groups only (the `_python_agg_general` /
`_aggregate_simple` route; `np.sum` accepts the raw object values, so no
column is skipped). -/
def python_agg_sum (cols : List AggColumn) (label_list : List (List Int))
    (shape : List Nat) : List (Int × List Int) :=
  cols.map (fun c =>
    (c.name, (keptFlatIds c.data label_list shape).map
      (fun g => ((flatGroupRows label_list c.data.length shape g).map
        (fun i => c.data.getD i 0)).sum)))

/-- `GroupBy.mean`: `return self._cython_agg_general('mean')` — the call
is not guarded, so any error propagates to the caller. -/
def groupby_mean (cols : List AggColumn) (label_list : List (List Int))
    (shape : List Nat) : Except AggError (List (Int × List Int)) :=
  cython_agg_general "mean" cols label_list shape

/-- `GroupBy.sum`: `try: return self._cython_agg_general('add') except
Exception: return self.aggregate(np.sum)`. -/
def groupby_sum (cols : List AggColumn) (label_list : List (List Int))
    (shape : List Nat) : Except AggError (List (Int × List Int)) :=
  match cython_agg_general "add" cols label_list shape with
  | .ok r => .ok r
  | .error _ => .ok (python_agg_sum cols label_list shape)

/-- C7 counterexample: on a single non-numeric column the vectorized path
raises, `sum` falls back to the Python-level aggregation, but `mean`
propagates the error instead of falling back — refuting the claim that
every named vectorized reduction (mean and sum) falls back. -/
theorem C7_counterexample_mean_propagates :
    groupby_mean [⟨0, false, [1, 2, 3]⟩] [[0, 0, 1]] [2] = .error .nameErr
    ∧ groupby_sum [⟨0, false, [1, 2, 3]⟩] [[0, 0, 1]] [2]
        = .ok (python_agg_sum [⟨0, false, [1, 2, 3]⟩] [[0, 0, 1]] [2])
    ∧ groupby_sum [⟨0, false, [1, 2, 3]⟩] [[0, 0, 1]] [2]
        = .ok [(0, [3, 3])] := by
  exact ⟨rfl, rfl, rfl⟩

/-- C7 (amended): only `sum` recovers from a vectorized-path error by
falling back to the generic Python-level aggregation; `mean` has no
fallback and propagates the error unchanged. -/
theorem C7_sum_falls_back_mean_propagates (cols : List AggColumn)
    (label_list : List (List Int)) (shape : List Nat) :
    (∀ e : AggError, cython_agg_general "add" cols label_list shape = .error e →
      groupby_sum cols label_list shape
        = .ok (python_agg_sum cols label_list shape))
    ∧ (∀ e : AggError, cython_agg_general "mean" cols label_list shape = .error e →
      groupby_mean cols label_list shape = .error e) := by
  constructor
  · intro e he
    unfold groupby_sum
    rw [he]
  · intro e he
    unfold groupby_mean
    exact he

/-- Witness for C7's amended theorem at the concrete non-numeric column. -/
theorem C7_sum_falls_back_mean_propagates_witness :
    groupby_sum [⟨1, false, [4, 5]⟩] [[0, 1]] [2]
      = .ok (python_agg_sum [⟨1, false, [4, 5]⟩] [[0, 1]] [2])
    ∧ groupby_mean [⟨1, false, [4, 5]⟩] [[0, 1]] [2] = .error .nameErr := by
  constructor
  · exact (C7_sum_falls_back_mean_propagates [⟨1, false, [4, 5]⟩] [[0, 1]]
      [2]).1 .nameErr rfl
  · exact (C7_sum_falls_back_mean_propagates [⟨1, false, [4, 5]⟩] [[0, 1]]
      [2]).2 .nameErr rfl

/-! ## `SeriesGroupBy.transform` (TransformCombine)

`transform` seeds the result with `self.obj.copy()`, iterates the groups
in sorted key order, and scatters each group's function output back with
`np.put(result, indexer, res)`, where `indexer` maps the group's labels to
their positions in the original index. -/

/-- A pandas `Series`: axis labels plus values, positionally aligned. -/
structure PSeries where
  index : List Int
  values : List Int
deriving DecidableEq

/-- Modelled from the spec: the group universe produced by
`_tseries.groupby_indices(grouper)` (not in the provided source) and then
iterated by `GroupBy.__iter__` as `sorted(self.primary.indices.keys())`:
the distinct non-missing key values in ascending order (per the spec,
missing keys "must exclude exactly those rows from every group and never
manufacture a spurious group for them").  The converted grouper is a
per-label lookup returning `none` for a missing key. -/
def groupKeys (s : PSeries) (grouper : Int → Option Int) : List Int :=
  List.insertionSort (· ≤ ·) (s.index.filterMap grouper).dedup

/-- The row positions of one group, in original row order (the spec's
`indices`: "mapping from key value → list of row positions"). -/
def groupPositions (s : PSeries) (grouper : Int → Option Int) (key : Int) :
    List Nat :=
  (List.range s.index.length).filter
    (fun i => grouper (s.index.getD i 0) == some key)

/-- `GroupBy.get_group(name)`: the sub-series of the rows whose label maps
to the group key, in original row order. -/
def get_group (s : PSeries) (grouper : Int → Option Int) (key : Int) : PSeries :=
  ⟨(groupPositions s grouper key).map (fun i => s.index.getD i 0),
   (groupPositions s grouper key).map (fun i => s.values.getD i 0)⟩

/-- `np.put(a, ind, v)`: write `v` cyclically at the positions `ind`
(numpy repeats `v` when it is shorter than `ind` and ignores the excess
when longer); raises `ValueError` when asked to put from an empty array
into at least one position. -/
def npPut (a : List Int) (ind : List Nat) (v : List Int) :
    Except String (List Int) :=
  if ind ≠ [] ∧ v = [] then .error "cannot put from empty array"
  else .ok ((List.range ind.length).foldl
    (fun acc j => acc.set (ind.getD j 0) (v.getD (j % v.length) 0)) a)

/-- One iteration of the `for name, group in self:` loop of
`SeriesGroupBy.transform`: compute `res = func(group)`,
`indexer = self.obj.index.get_indexer(group.index)` (first-occurrence
position lookup) and `np.put(result, indexer, res)`. -/
def transformStep (s : PSeries) (grouper : Int → Option Int)
    (func : PSeries → PSeries) (result : List Int) (key : Int) :
    Except String (List Int) :=
  npPut result
    ((get_group s grouper key).index.map (fun lbl => s.index.indexOf lbl))
    (func (get_group s grouper key)).values

/-- `SeriesGroupBy.transform(func)`: result is seeded as a copy of the
original values and each group's output is scattered into it in sorted
group-key order. -/
def seriesTransform (s : PSeries) (grouper : Int → Option Int)
    (func : PSeries → PSeries) : Except String (List Int) :=
  (groupKeys s grouper).foldlM (transformStep s grouper func) s.values

/-- `_is_indexed_like(obj, other)`, Series/Series case:
`obj.index.equals(other.index)`. -/
def seriesIndexedLike (a b : PSeries) : Bool :=
  a.index == b.index

theorem groupPositions_lt (s : PSeries) (grouper : Int → Option Int) (key : Int) :
    ∀ p ∈ groupPositions s grouper key, p < s.index.length := by
  intro p hp
  unfold groupPositions at hp
  rw [List.mem_filter] at hp
  exact List.mem_range.mp hp.1

theorem groupPositions_grouper (s : PSeries) (grouper : Int → Option Int)
    (key : Int) :
    ∀ p ∈ groupPositions s grouper key, grouper (s.index.getD p 0) = some key := by
  intro p hp
  unfold groupPositions at hp
  rw [List.mem_filter] at hp
  exact beq_iff_eq.mp hp.2

/-- Overwriting a position with the value it already holds is a no-op. -/
theorem set_getD_self (l : List Int) (n : Nat) (d : Int) :
    l.set n (l.getD n d) = l := by
  rcases Nat.lt_or_ge n l.length with h | h
  · apply List.ext_getElem (by rw [List.length_set])
    intro j h1 h2
    rw [List.getElem_set]
    split
    · rename_i heq
      subst heq
      exact (List.getD_eq_getElem _ _ h).symm ▸ rfl
    · rfl
  · exact List.set_eq_of_length_le h

theorem set_getD_ne (l : List Int) (q : Nat) (a : Int) (p : Nat) (h : q ≠ p) :
    (l.set q a).getD p 0 = l.getD p 0 := by
  simp [List.getD_eq_getElem?_getD, List.getElem?_set, h]

/-- A sequence of writes that each re-write the seed's own value at their
target position leaves the seed unchanged. -/
theorem foldl_set_noop (l : List Int) (m : Nat) (pos : Nat → Nat)
    (val : Nat → Int) (h : ∀ j, j < m → val j = l.getD (pos j) 0) :
    (List.range m).foldl (fun acc j => acc.set (pos j) (val j)) l = l := by
  induction m with
  | zero => rfl
  | succ m ih =>
    rw [List.range_succ, List.foldl_append,
      ih (fun j hj => h j (Nat.lt_succ_of_lt hj))]
    simp only [List.foldl_cons, List.foldl_nil]
    rw [h m (Nat.lt_succ_self m)]
    exact set_getD_self l (pos m) 0

/-- A sequence of writes at positions all different from `p` does not
change the value at `p`. -/
theorem foldl_set_getD_ne (a : List Int) (m : Nat) (pos : Nat → Nat)
    (val : Nat → Int) (p : Nat) (h : ∀ j, j < m → pos j ≠ p) :
    ((List.range m).foldl (fun acc j => acc.set (pos j) (val j)) a).getD p 0
      = a.getD p 0 := by
  induction m with
  | zero => rfl
  | succ m ih =>
    rw [List.range_succ, List.foldl_append]
    simp only [List.foldl_cons, List.foldl_nil]
    rw [set_getD_ne _ _ _ _ (h m (Nat.lt_succ_self m))]
    exact ih (fun j hj => h j (Nat.lt_succ_of_lt hj))

theorem get_group_values_length (s : PSeries) (grouper : Int → Option Int)
    (key : Int) :
    (get_group s grouper key).values.length
      = (groupPositions s grouper key).length := by
  unfold get_group
  exact List.length_map _ _

theorem get_group_index_length (s : PSeries) (grouper : Int → Option Int)
    (key : Int) :
    (get_group s grouper key).index.length
      = (groupPositions s grouper key).length := by
  unfold get_group
  exact List.length_map _ _

theorem getD_map_of_lt {α β : Type} (ps : List α) (f : α → β) (d : β) (d' : α)
    (j : Nat) (hj : j < ps.length) :
    (ps.map f).getD j d = f (ps.getD j d') := by
  rw [List.getD_eq_getElem _ _ (by rw [List.length_map]; exact hj),
    List.getElem_map, List.getD_eq_getElem _ _ hj]

theorem getD_mem_of_lt {α : Type} (ps : List α) (d : α) (j : Nat)
    (hj : j < ps.length) : ps.getD j d ∈ ps := by
  rw [List.getD_eq_getElem _ _ hj]
  exact List.getElem_mem hj

/-- With unique axis labels, the scatter indexer computed by `transform`
(`get_indexer` of the group's labels) is exactly the group's original row
positions. -/
theorem transform_indexer_eq_positions (s : PSeries) (grouper : Int → Option Int)
    (key : Int) (hnodup : s.index.Nodup) :
    (get_group s grouper key).index.map (fun lbl => s.index.indexOf lbl)
      = groupPositions s grouper key := by
  unfold get_group
  rw [List.map_map]
  have h : ∀ i ∈ groupPositions s grouper key,
      ((fun lbl => s.index.indexOf lbl) ∘ fun i => s.index.getD i 0) i = id i := by
    intro i hi
    have hlt := groupPositions_lt s grouper key i hi
    simp only [Function.comp_apply, id]
    rw [List.getD_eq_getElem _ _ hlt]
    exact List.indexOf_getElem hnodup i hlt
  rw [List.map_congr_left h, List.map_id]

/-- With unique axis labels, one identity-function transform step writes
each row's own value back to its own position, leaving the seed unchanged. -/
theorem transformStep_id (s : PSeries) (grouper : Int → Option Int)
    (hnodup : s.index.Nodup) (key : Int) :
    transformStep s grouper (fun g => g) s.values key = .ok s.values := by
  unfold transformStep
  rw [transform_indexer_eq_positions s grouper key hnodup]
  show npPut s.values (groupPositions s grouper key)
    (get_group s grouper key).values = .ok s.values
  unfold npPut
  rw [if_neg]
  · congr 1
    have hvlen : (get_group s grouper key).values.length
        = (groupPositions s grouper key).length :=
      get_group_values_length s grouper key
    have hval : ∀ j, j < (groupPositions s grouper key).length →
        (get_group s grouper key).values.getD
            (j % (get_group s grouper key).values.length) 0
          = s.values.getD ((groupPositions s grouper key).getD j 0) 0 := by
      intro j hj
      rw [hvlen, Nat.mod_eq_of_lt hj]
      show ((groupPositions s grouper key).map
        (fun i => s.values.getD i 0)).getD j 0 = _
      exact getD_map_of_lt _ _ _ 0 j hj
    exact foldl_set_noop s.values (groupPositions s grouper key).length
      (fun j => (groupPositions s grouper key).getD j 0)
      (fun j => (get_group s grouper key).values.getD
        (j % (get_group s grouper key).values.length) 0) hval
  · rintro ⟨h1, h2⟩
    have : groupPositions s grouper key = [] := by
      have := congrArg List.length h2
      rw [get_group_values_length] at this
      exact List.eq_nil_of_length_eq_zero this
    exact h1 this

/-- C5: for every grouped Series with unique axis labels, `transform` with
the identity function returns the original data — same values, same row
order — because each group's output is scattered back into a copy of the
original at that group's own row positions. -/
theorem C5_transform_identity (s : PSeries) (grouper : Int → Option Int)
    (hnodup : s.index.Nodup) :
    seriesTransform s grouper (fun g => g) = .ok s.values := by
  unfold seriesTransform
  generalize groupKeys s grouper = keys
  induction keys with
  | nil => rfl
  | cons k ks ih =>
    rw [List.foldlM_cons, transformStep_id s grouper hnodup k]
    exact ih

/-- Witness for C5 at a concrete two-group Series. -/
theorem C5_transform_identity_witness :
    seriesTransform ⟨[7, 8, 9], [1, 2, 3]⟩
      (fun lbl => if lbl ≤ 7 then some 0 else some 1) (fun g => g)
      = .ok [1, 2, 3] :=
  C5_transform_identity ⟨[7, 8, 9], [1, 2, 3]⟩
    (fun lbl => if lbl ≤ 7 then some 0 else some 1) (by decide)

theorem npPut_getD_of_ne (a : List Int) (ind : List Nat) (v : List Int)
    (p : Nat) (hp : ∀ j, j < ind.length → ind.getD j 0 ≠ p) (r : List Int)
    (h : npPut a ind v = .ok r) : r.getD p 0 = a.getD p 0 := by
  unfold npPut at h
  split at h
  · exact absurd h (by simp)
  · injection h with h
    rw [← h]
    exact foldl_set_getD_ne a ind.length (fun j => ind.getD j 0)
      (fun j => v.getD (j % v.length) 0) p hp

/-- A transform step never writes at the position of a row whose key is
missing: every scatter target is the first position of some group label,
and group labels always map to a key. -/
theorem transformStep_getD_missing (s : PSeries) (grouper : Int → Option Int)
    (func : PSeries → PSeries) (acc : List Int) (key : Int) (p : Nat)
    (r : List Int) (_hp : p < s.index.length)
    (hmiss : grouper (s.index.getD p 0) = none)
    (h : transformStep s grouper func acc key = .ok r) :
    r.getD p 0 = acc.getD p 0 := by
  apply npPut_getD_of_ne acc _ _ p ?_ r h
  intro j hj heq
  rw [List.length_map, get_group_index_length] at hj
  have hlbl : (get_group s grouper key).index.getD j 0
      = s.index.getD ((groupPositions s grouper key).getD j 0) 0 := by
    show ((groupPositions s grouper key).map (fun i => s.index.getD i 0)).getD j 0 = _
    exact getD_map_of_lt _ _ _ 0 j hj
  have hposmem : (groupPositions s grouper key).getD j 0
      ∈ groupPositions s grouper key := getD_mem_of_lt _ 0 j hj
  have hkey : grouper ((get_group s grouper key).index.getD j 0) = some key := by
    rw [hlbl]
    exact groupPositions_grouper s grouper key _ hposmem
  have hmem : (get_group s grouper key).index.getD j 0 ∈ s.index := by
    rw [hlbl]
    exact getD_mem_of_lt _ 0 _ (groupPositions_lt s grouper key _ hposmem)
  have hindget : ((get_group s grouper key).index.map
      (fun lbl => s.index.indexOf lbl)).getD j 0
      = s.index.indexOf ((get_group s grouper key).index.getD j 0) :=
    getD_map_of_lt _ _ _ 0 j (by rw [get_group_index_length]; exact hj)
  rw [hindget] at heq
  have hqlt : s.index.indexOf ((get_group s grouper key).index.getD j 0)
      < s.index.length := List.indexOf_lt_length.mpr hmem
  have : s.index.getD p 0 = (get_group s grouper key).index.getD j 0 := by
    rw [← heq, List.getD_eq_getElem _ _ hqlt]
    exact List.getElem_indexOf hqlt
  rw [this, hkey] at hmiss
  exact Option.noConfusion hmiss

/-- C10: for every Series transform that completes, every row whose key
maps to no group (missing key) retains its original value in the output:
the result is seeded as a copy of the original values and only positions
belonging to iterated groups are overwritten. -/
theorem C10_transform_missing_rows_unchanged (s : PSeries)
    (grouper : Int → Option Int) (func : PSeries → PSeries) (p : Nat)
    (r : List Int) (hp : p < s.index.length)
    (hmiss : grouper (s.index.getD p 0) = none)
    (h : seriesTransform s grouper func = .ok r) :
    r.getD p 0 = s.values.getD p 0 := by
  unfold seriesTransform at h
  have aux : ∀ (keys : List Int) (acc res : List Int),
      keys.foldlM (transformStep s grouper func) acc = .ok res →
      res.getD p 0 = acc.getD p 0 := by
    intro keys
    induction keys with
    | nil =>
      intro acc res hres
      rw [List.foldlM_nil] at hres
      injection hres with hres
      rw [hres]
    | cons k ks ih =>
      intro acc res hres
      rw [List.foldlM_cons] at hres
      cases hstep : transformStep s grouper func acc k with
      | error e =>
        rw [hstep] at hres
        exact Except.noConfusion hres
      | ok acc' =>
        rw [hstep] at hres
        have hres' : ks.foldlM (transformStep s grouper func) acc' = .ok res :=
          hres
        rw [ih acc' res hres',
          transformStep_getD_missing s grouper func acc k p acc' hp hmiss hstep]
  exact aux (groupKeys s grouper) s.values r h

/-- Witness for C10: label `8` has no key; its value survives a scaling
transform unchanged. -/
theorem C10_transform_missing_rows_unchanged_witness :
    ([50, 6, 70] : List Int).getD 1 0 = ([5, 6, 7] : List Int).getD 1 0 :=
  C10_transform_missing_rows_unchanged ⟨[7, 8, 9], [5, 6, 7]⟩
    (fun lbl => if lbl = 8 then none else some 0)
    (fun g => ⟨g.index, g.values.map (fun v => v * 10)⟩) 1 [50, 6, 70]
    (by decide) (by decide) (by rfl)

/-- A three-row Series used to exercise `transform` with a misaligned
user function. -/
def demoSeries : PSeries := ⟨[0, 1, 2], [10, 20, 30]⟩

/-- Two groups: labels `0, 1` map to key `0`, label `2` to key `1`. -/
def demoGrouper : Int → Option Int :=
  fun lbl => if lbl ≤ 1 then some 0 else some 1

/-- A transform function violating the alignment contract: it returns only
the first row of each group, so its output index does not match the
group's index on any group of more than one row. -/
def demoHeadFunc : PSeries → PSeries :=
  fun g => ⟨g.index.take 1, g.values.take 1⟩

/-- C8 counterexample: on `demoSeries`, the first group's output is not
aligned with the group's index (`seriesIndexedLike` is `false`), yet
`transform` raises no error: `np.put` silently recycles the short output
across the group's positions, producing `[10, 10, 30]` (row 1's value `20`
is overwritten by the repeated `10`). -/
theorem C8_counterexample_silent_coercion :
    seriesIndexedLike (demoHeadFunc (get_group demoSeries demoGrouper 0))
      (get_group demoSeries demoGrouper 0) = false
    ∧ seriesTransform demoSeries demoGrouper demoHeadFunc = .ok [10, 10, 30] :=
  ⟨rfl, rfl⟩

theorem npPut_ok (a : List Int) (ind : List Nat) (v : List Int)
    (h : ind = [] ∨ v ≠ []) : ∃ r, npPut a ind v = .ok r := by
  unfold npPut
  rw [if_neg]
  · exact ⟨_, rfl⟩
  · rintro ⟨h1, h2⟩
    rcases h with h | h
    · exact h1 h
    · exact h h2

/-- C8 (amended): `transform` never checks that a group's output honors
the group's index; as long as no group's output is empty against a
nonempty group (the only case where `np.put` itself raises), the transform
completes without error, silently coercing misaligned output by recycling
it across the group's positions — as the concrete run producing
`[10, 10, 30]` shows. -/
theorem C8_transform_accepts_misaligned (s : PSeries)
    (grouper : Int → Option Int) (func : PSeries → PSeries)
    (h : ∀ key ∈ groupKeys s grouper,
      (func (get_group s grouper key)).values ≠ []
        ∨ (get_group s grouper key).index = []) :
    (∃ r : List Int, seriesTransform s grouper func = .ok r)
    ∧ seriesTransform demoSeries demoGrouper demoHeadFunc
        = .ok [10, 10, 30] := by
  refine ⟨?_, rfl⟩
  unfold seriesTransform
  have aux : ∀ keys : List Int,
      (∀ key ∈ keys, (func (get_group s grouper key)).values ≠ []
        ∨ (get_group s grouper key).index = []) →
      ∀ acc : List Int, ∃ r, keys.foldlM (transformStep s grouper func) acc = .ok r := by
    intro keys
    induction keys with
    | nil => intro _ acc; exact ⟨acc, rfl⟩
    | cons k ks ih =>
      intro hks acc
      have hstep : ∃ r1, transformStep s grouper func acc k = .ok r1 := by
        unfold transformStep
        apply npPut_ok
        rcases hks k (List.mem_cons_self k ks) with h1 | h1
        · exact Or.inr h1
        · left
          rw [h1]
          rfl
      obtain ⟨r1, hr1⟩ := hstep
      obtain ⟨r, hr⟩ := ih (fun key hk => hks key (List.mem_cons_of_mem k hk)) r1
      refine ⟨r, ?_⟩
      rw [List.foldlM_cons, hr1]
      exact hr
  exact aux (groupKeys s grouper) h s.values

/-- Witness for C8's amended theorem: the misaligned `demoHeadFunc`
satisfies the nonempty-output hypothesis on `demoSeries`, so the transform
completes without error. -/
theorem C8_transform_accepts_misaligned_witness :
    (∃ r : List Int, seriesTransform demoSeries demoGrouper demoHeadFunc = .ok r)
    ∧ seriesTransform demoSeries demoGrouper demoHeadFunc = .ok [10, 10, 30] :=
  C8_transform_accepts_misaligned demoSeries demoGrouper demoHeadFunc
    (by decide)

/-! ## `_convert_grouper` and `Grouping` construction (C9) -/

/-- The raw key source handed to `_convert_grouper`: a dict, an aligned
Series, an explicit array/list, or a per-label callable. -/
inductive GrouperArg where
  | dict (f : Int → Option Int)
  | series (idx : List Int) (vals : List Int)
  | arr (xs : List Int)
  | fn (f : Int → Int)

/-- What `_convert_grouper` hands to `Grouping`: a lookup (`dict.get`), a
per-row value array, or the callable unchanged. -/
inductive ConvertedGrouper where
  | lookup (f : Int → Option Int)
  | values (xs : List (Option Int))
  | callable (f : Int → Int)

/-- `_convert_grouper(axis, grouper)`: a dict becomes `grouper.get`; a
Series is used as-is when its index equals the axis, else reindexed to the
axis (`Series.reindex` is an external collaborator, modelled as a
first-match label lookup with `none` for absent labels); a list/ndarray is
`assert(len(grouper) == len(axis))`-checked and used directly; anything
else is returned unchanged. -/
def convert_grouper (axis : List Int) : GrouperArg → Except String ConvertedGrouper
  | .dict f => .ok (.lookup f)
  | .series idx vals =>
      if idx = axis then .ok (.values (vals.map some))
      else .ok (.values (axis.map
        (fun lbl => (idx.indexOf? lbl).bind (fun p => vals[p]?))))
  | .arr xs =>
      if xs.length = axis.length then .ok (.values (xs.map some))
      else .error "AssertionError"
  | .fn f => .ok (.callable f)

/-- C9: constructing a grouping from an explicit key array/list whose
length differs from the grouped axis fails immediately with
`AssertionError`; and whenever an explicit array is accepted, the value
vector used has exactly the axis length — it is never truncated or
padded. -/
theorem C9_mismatched_key_array_fails (axis xs : List Int)
    (h : xs.length ≠ axis.length) :
    convert_grouper axis (.arr xs) = .error "AssertionError"
    ∧ ∀ (ys : List Int) (cg : ConvertedGrouper),
        convert_grouper axis (.arr ys) = .ok cg →
        ∃ zs : List (Option Int), cg = .values zs ∧ zs.length = axis.length := by
  constructor
  · show (if xs.length = axis.length then
        Except.ok (ConvertedGrouper.values (xs.map some))
      else .error "AssertionError") = .error "AssertionError"
    rw [if_neg h]
  · intro ys cg hok
    by_cases hy : ys.length = axis.length
    · have hok' : (Except.ok (ConvertedGrouper.values (ys.map some))
          : Except String ConvertedGrouper) = Except.ok cg := by
        rw [← hok]
        show Except.ok _ = (if ys.length = axis.length then
          Except.ok (ConvertedGrouper.values (ys.map some))
        else .error "AssertionError")
        rw [if_pos hy]
      injection hok' with hok'
      exact ⟨ys.map some, hok'.symm, by rw [List.length_map]; exact hy⟩
    · have hok' : (Except.error "AssertionError"
          : Except String ConvertedGrouper) = .ok cg := by
        rw [← hok]
        show Except.error _ = (if ys.length = axis.length then
          Except.ok (ConvertedGrouper.values (ys.map some))
        else .error "AssertionError")
        rw [if_neg hy]
      exact Except.noConfusion hok'

/-- Witness for C9: a two-element key array against a three-label axis. -/
theorem C9_mismatched_key_array_fails_witness :
    convert_grouper [1, 2, 3] (.arr [4, 5]) = .error "AssertionError" :=
  (C9_mismatched_key_array_fails [1, 2, 3] [4, 5] (by decide)).1

/-! ## `generate_groups` / `_generate_groups` (GroupSlicer) and `_multi_iter`

`_generate_groups` works one key level at a time on the sorted label
arrays: `left = axis_labels.searchsorted(0)` skips the leading `-1`
(missing) rows, `edges = axis_labels.searchsorted(arange(1, shape[which] +
1))` gives each code's right boundary, and one `(code, range)` pair is
emitted per code `0..shape[which]-1`, zero-width ranges included.  On a
sorted array, `searchsorted(x, side='left')` is the number of elements
`< x`. -/

/-- One level of `_generate_groups` on the label slice of the current
range: the `(code, left, right)` boundaries, with code `i`'s range being
`[count(< i), count(< i+1))` (for `i = 0` the lower edge is
`left = searchsorted(0) = count(< 0)`, skipping the `-1` rows). -/
def generateLevelRanges (axis_labels : List Int) (size : Nat) :
    List (Nat × Nat × Nat) :=
  (List.range size).map (fun i =>
    (i, axis_labels.countP (fun l => decide (l < (i : Int))),
        axis_labels.countP (fun l => decide (l < (i : Int) + 1))))

/-- The lazy value yielded by `_generate_groups`: a concrete data slice at
the terminal key level, or a sub-generator for the next level. -/
inductive GroupTree where
  | leaf (code : Nat) (slice : List Int)
  | node (code : Nat) (children : List GroupTree)

/-- `_generate_groups(data, labels, shape, start, end, which)`: at the
terminal level each code yields its zero-copy slice
`data[start+left : start+right]`; at an intermediate level each code
yields a sub-generator over its sub-range and the next level. -/
def genGroups (data : List Int) :
    List (List Int) → List Nat → Nat → Nat → List GroupTree
  | [lab], [sz], start, stop =>
      (generateLevelRanges ((lab.drop start).take (stop - start)) sz).map
        (fun cle => .leaf cle.1
          ((data.drop (start + cle.2.1)).take (cle.2.2 - cle.2.1)))
  | lab :: rest, sz :: restShape, start, stop =>
      (generateLevelRanges ((lab.drop start).take (stop - start)) sz).map
        (fun cle => .node cle.1
          (genGroups data rest restShape (start + cle.2.1) (start + cle.2.2)))
  | _, _, _, _ => []

/-- The `flatten` closure of `GroupBy._multi_iter`: a terminal subobject is
yielded with its key; a sub-generator is flattened recursively and any
flattened leaf whose data has zero rows (`data.shape[shape_axis] == 0`) is
skipped by its parent level. -/
def flattenGen : List GroupTree → List (List Nat × List Int)
  | [] => []
  | .leaf c s :: rest => ([c], s) :: flattenGen rest
  | .node c ch :: rest =>
      ((flattenGen ch).filterMap (fun ps =>
        if ps.2.length = 0 then none else some (c :: ps.1, ps.2)))
        ++ flattenGen rest

/-- Any count of `< i+1` splits into the count of `< i` plus the count of
`= i` (integer labels). -/
theorem countP_lt_add_one (labels : List Int) (i : Int) :
    labels.countP (fun l => decide (l < i + 1))
      = labels.countP (fun l => decide (l < i))
        + labels.countP (fun l => decide (l = i)) := by
  induction labels with
  | nil => rfl
  | cons a rest ih =>
    simp only [List.countP_cons, ih]
    by_cases h1 : a < i + 1 <;> by_cases h2 : a < i <;> by_cases h3 : a = i <;>
      simp [h1, h2, h3] <;> omega

/-- In a sorted label array, position `j` holds a value `< x` exactly when
`j` is below `searchsorted(x)` (= the count of elements `< x`). -/
theorem sorted_getD_lt_iff (labels : List Int)
    (hs : List.Pairwise (· ≤ ·) labels) (x : Int) :
    ∀ j : Nat, j < labels.length →
      (labels.getD j 0 < x ↔ j < labels.countP (fun l => decide (l < x))) := by
  induction labels with
  | nil => intro j hj; exact absurd hj (by simp)
  | cons a rest ih =>
    rw [List.pairwise_cons] at hs
    intro j hj
    cases j with
    | zero =>
      simp only [List.getD_cons_zero, List.countP_cons]
      constructor
      · intro h
        have h1 : (if decide (a < x) = true then 1 else 0) = 1 := by simp [h]
        omega
      · intro h
        by_contra hax
        have hz : rest.countP (fun l => decide (l < x)) = 0 := by
          rw [List.countP_eq_zero]
          intro b hb
          simp only [decide_eq_true_eq]
          intro hbx
          exact hax (lt_of_le_of_lt (hs.1 b hb) hbx)
        have h1 : (if decide (a < x) = true then 1 else 0) = 0 := by simp [hax]
        omega
    | succ j =>
      simp only [List.getD_cons_succ, List.countP_cons]
      rw [List.length_cons] at hj
      have hj' : j < rest.length := Nat.lt_of_succ_lt_succ hj
      have hih := ih hs.2 j hj'
      by_cases hax : a < x
      · have h1 : (if decide (a < x) = true then 1 else 0) = 1 := by simp [hax]
        constructor
        · intro h
          have := hih.mp h
          omega
        · intro h
          apply hih.mpr
          omega
      · have h1 : (if decide (a < x) = true then 1 else 0) = 0 := by simp [hax]
        have hz : rest.countP (fun l => decide (l < x)) = 0 := by
          rw [List.countP_eq_zero]
          intro b hb
          simp only [decide_eq_true_eq]
          intro hbx
          exact hax (lt_of_le_of_lt (hs.1 b hb) hbx)
        constructor
        · intro h
          exfalso
          exact hax (lt_of_le_of_lt
            (hs.1 _ (getD_mem_of_lt rest 0 j hj')) h)
        · intro h
          omega

/-- Every pair yielded by `_multi_iter`'s flattening of sub-generators has
a nonempty data slice: empty leaf groups are skipped at their parent
level. -/
theorem flattenGen_nonempty : ∀ trees : List GroupTree,
    (∀ t ∈ trees, ∃ c ch, t = GroupTree.node c ch) →
    ∀ pr ∈ flattenGen trees, pr.2.length ≠ 0 := by
  intro trees
  induction trees with
  | nil =>
    intro _ pr hpr
    simp [flattenGen] at hpr
  | cons t rest ih =>
    intro htrees pr hpr
    obtain ⟨c, ch, rfl⟩ := htrees t (List.mem_cons_self t rest)
    simp only [flattenGen] at hpr
    rcases List.mem_append.mp hpr with h | h
    · obtain ⟨a, _, ha⟩ := List.mem_filterMap.mp h
      by_cases hz : a.2.length = 0
      · rw [if_pos hz] at ha
        exact Option.noConfusion ha
      · rw [if_neg hz] at ha
        injection ha with ha
        rw [← ha]
        exact hz
    · exact ih (fun u hu => htrees u (List.mem_cons_of_mem _ hu)) pr h

/-- C6: at every key level the slicer emits exactly one `(code, range)`
pair per code of the group-space shape, with code `i`'s boundaries
`[count(< i), count(< i+1))` — so the leading `-1` rows sit below every
range, a code with no rows still gets its (zero-width) pair, and on the
sorted labels every row inside code `i`'s range is labeled `i`; at the
terminal level of `_generate_groups` the same one-pair-per-code shape
holds; and the flattened multi-key iterator skips every leaf group with
zero rows, so public multi-key iteration never yields an empty group. -/
theorem C6_slicer_emits_all_codes_multi_iter_skips_empty
    (labels : List Int) (size : Nat)
    (hs : List.Pairwise (· ≤ ·) labels) :
    (generateLevelRanges labels size).length = size
    ∧ (∀ i : Nat, i < size →
        (generateLevelRanges labels size).getD i (0, 0, 0)
          = (i, labels.countP (fun l => decide (l < (i : Int))),
              labels.countP (fun l => decide (l < (i : Int) + 1))))
    ∧ (∀ i : Nat,
        labels.countP (fun l => decide (l < (i : Int) + 1))
          = labels.countP (fun l => decide (l < (i : Int)))
            + labels.countP (fun l => decide (l = (i : Int))))
    ∧ (∀ i j : Nat, labels.countP (fun l => decide (l < (i : Int))) ≤ j →
        j < labels.countP (fun l => decide (l < (i : Int) + 1)) →
        labels.getD j 0 = (i : Int))
    ∧ (∀ (data lab : List Int) (sz : Nat),
        (genGroups data [lab] [sz] 0 lab.length).length = sz)
    ∧ (∀ trees : List GroupTree,
        (∀ t ∈ trees, ∃ c ch, t = GroupTree.node c ch) →
        ∀ pr ∈ flattenGen trees, pr.2.length ≠ 0) := by
  refine ⟨?_, ?_, fun i => countP_lt_add_one labels (i : Int), ?_, ?_,
    flattenGen_nonempty⟩
  · unfold generateLevelRanges
    rw [List.length_map, List.length_range]
  · intro i hi
    unfold generateLevelRanges
    rw [getD_map_of_lt _ _ _ 0 i (by rw [List.length_range]; exact hi),
      List.getD_eq_getElem _ _ (by rw [List.length_range]; exact hi),
      List.getElem_range]
  · intro i j h1 h2
    have hjlen : j < labels.length :=
      lt_of_lt_of_le h2 (List.countP_le_length _)
    have hlt : labels.getD j 0 < (i : Int) + 1 :=
      (sorted_getD_lt_iff labels hs ((i : Int) + 1) j hjlen).mpr h2
    have hge : ¬ labels.getD j 0 < (i : Int) := by
      intro hcon
      exact absurd ((sorted_getD_lt_iff labels hs (i : Int) j hjlen).mp hcon)
        (by omega)
    omega
  · intro data lab sz
    show ((generateLevelRanges ((lab.drop 0).take (lab.length - 0)) sz).map _).length = sz
    rw [List.length_map]
    unfold generateLevelRanges
    rw [List.length_map, List.length_range]

/-- Witness for C6 at sorted labels `[-1, 0, 0, 2]` with 3 codes: code 1
has no rows yet its zero-width pair `(1, 3, 3)` is still emitted, the
first range starts past the leading `-1` row, and row 1 (inside code 0's
range) is labeled 0. -/
theorem C6_slicer_emits_all_codes_multi_iter_skips_empty_witness :
    (generateLevelRanges [-1, 0, 0, 2] 3).getD 1 (0, 0, 0) = (1, 3, 3)
    ∧ ([-1, 0, 0, 2] : List Int).getD 1 0 = 0 := by
  constructor
  · have h := (C6_slicer_emits_all_codes_multi_iter_skips_empty
      [-1, 0, 0, 2] 3 (by decide)).2.1 1 (by decide)
    rw [h]
    decide
  · exact (C6_slicer_emits_all_codes_multi_iter_skips_empty
      [-1, 0, 0, 2] 3 (by decide)).2.2.2.1 0 1 (by decide) (by decide)

/-! ## Apply combine for tabular results (`_python_apply_general`,
`_wrap_frames`, `_concat_frames`, `_concat_frames_hierarchical`,
`_make_concat_multiindex`)

Single-grouping, axis 0.  A hierarchical (MultiIndex) row labelling is
rendered as the list of its `(group key, original label)` row tuples. -/

/-- A pandas `DataFrame`: row labels, column labels, and one value list
per row. -/
structure PFrame where
  index : List Int
  columns : List Int
  rows : List (List Int)
deriving DecidableEq

/-- `_is_indexed_like(obj, other)`, frame/frame case
(`obj._indexed_same(other)`): all axes equal. -/
def frameIndexedLike (a b : PFrame) : Bool :=
  a.index == b.index && a.columns == b.columns

/-- The combined output of `_wrap_frames`: either a flat-indexed frame
(with `none` rows where reindexing found no label) or a hierarchically
indexed frame. -/
inductive CombinedFrames where
  | flat (index : List Int) (columns : List Int) (rows : List (Option (List Int)))
  | hier (hindex : List (Int × Int)) (columns : List Int) (rows : List (List Int))

/-- The sorted distinct group keys of a frame grouping (the `Grouping`'s
`ids`, which double as `group_index`; `reverse_ids` is positional lookup
into this list). -/
def frameGroupKeys (obj : PFrame) (grouper : Int → Option Int) : List Int :=
  List.insertionSort (· ≤ ·) (obj.index.filterMap grouper).dedup

/-- `GroupBy.get_group` for frames: the sub-frame of the rows whose label
maps to the key, in original row order. -/
def frame_get_group (obj : PFrame) (grouper : Int → Option Int) (key : Int) :
    PFrame :=
  let ps := (List.range obj.index.length).filter
    (fun i => grouper (obj.index.getD i 0) == some key)
  ⟨ps.map (fun i => obj.index.getD i 0), obj.columns,
   ps.map (fun i => obj.rows.getD i [])⟩

/-- `_all_indexes_same(indexes)`. -/
def all_indexes_same (indexes : List (List Int)) : Bool :=
  indexes.all (fun idx => idx == indexes.headD [])

/-- `_make_concat_multiindex(indexes, keys, groupings)` for one grouping,
rendered as row tuples.  Fast path (all per-group indexes identical):
`levels = [group_index, shared index]`,
`labels = [np.repeat(mapped keys, n), np.tile(arange(n), len(indexes))]`
where `mapped` goes through `reverse_ids`.  Slow path: per level,
`np.repeat(key, len(index))` concatenated across groups, with the
concatenation of all indexes as the last level, zipped by
`MultiIndex.from_arrays`. -/
def make_concat_multiindex (indexes : List (List Int)) (keys : List Int)
    (ids : List Int) : List (Int × Int) :=
  if all_indexes_same indexes then
    let new_index := indexes.headD []
    let n := new_index.length
    let mapped := keys.map (fun k => ids.indexOf k)
    ((mapped.flatMap (fun m => List.replicate n m)).zip
      ((List.range indexes.length).flatMap (fun _ => List.range n))).map
      (fun ml => (ids.getD ml.1 0, new_index.getD ml.2 0))
  else
    ((keys.zip indexes).flatMap
      (fun ki => List.replicate ki.2.length ki.1)).zip
      (indexes.flatMap (fun x => x))

/-- `_concat_frames(frames, index)` (axis 0): concatenate the per-group
indexes and rows in iteration order, take the first frame's columns, and
reindex the concatenation to the original `index` (`DataFrame.reindex` is
an external collaborator, modelled as first-match label lookup with `none`
for an absent label). -/
def concat_frames (frames : List PFrame) (index : List Int) : CombinedFrames :=
  let cat_index := frames.flatMap (fun f => f.index)
  let cat_rows := frames.flatMap (fun f => f.rows)
  .flat index (frames.headD ⟨[], [], []⟩).columns
    (index.map (fun lbl => (cat_index.indexOf? lbl).bind (fun p => cat_rows[p]?)))

/-- `_concat_frames_hierarchical(frames, keys, groupings)` (axis 0): stack
the frames and label the rows with the combined multi-level index. -/
def concat_frames_hierarchical (frames : List PFrame) (keys : List Int)
    (ids : List Int) : CombinedFrames :=
  .hier (make_concat_multiindex (frames.map (fun f => f.index)) keys ids)
    (frames.headD ⟨[], [], []⟩).columns
    (frames.flatMap (fun f => f.rows))

/-- `GroupBy._wrap_frames(keys, values, not_indexed_same)`. -/
def wrap_frames (obj : PFrame) (grouper : Int → Option Int) (keys : List Int)
    (values : List PFrame) (not_indexed_same : Bool) : CombinedFrames :=
  if not_indexed_same then
    concat_frames_hierarchical values keys (frameGroupKeys obj grouper)
  else
    concat_frames values obj.index

/-- `GroupBy._python_apply_general(arg)` for tabular per-group results:
apply `func` to each group in sorted key order, record whether any result
fails `_is_indexed_like` against its own group, and combine through
`_wrap_frames`. -/
def python_apply_general (obj : PFrame) (grouper : Int → Option Int)
    (func : PFrame → PFrame) : CombinedFrames :=
  let keys := frameGroupKeys obj grouper
  let not_indexed_same := keys.any
    (fun k => !(frameIndexedLike (func (frame_get_group obj grouper k))
      (frame_get_group obj grouper k)))
  wrap_frames obj grouper keys
    (keys.map (fun k => func (frame_get_group obj grouper k))) not_indexed_same

theorem flatMap_congr_left {α β : Type} (l : List α) (f g : α → List β)
    (h : ∀ a ∈ l, f a = g a) : l.flatMap f = l.flatMap g := by
  induction l with
  | nil => rfl
  | cons a rest ih =>
    rw [List.flatMap_cons, List.flatMap_cons, h a (List.mem_cons_self a rest),
      ih (fun b hb => h b (List.mem_cons_of_mem a hb))]

theorem zip_replicate_left {α β : Type} (a : α) (l : List β) :
    (List.replicate l.length a).zip l = l.map (fun x => (a, x)) := by
  induction l with
  | nil => rfl
  | cons b rest ih =>
    rw [List.length_cons, List.replicate_succ, List.zip_cons_cons, ih,
      List.map_cons]

theorem zip_self_map {α β : Type} (l : List α) (g : α → β) :
    l.zip (l.map g) = l.map (fun a => (a, g a)) := by
  induction l with
  | nil => rfl
  | cons a rest ih =>
    rw [List.map_cons, List.zip_cons_cons, ih, List.map_cons]

theorem range_flatMap_const_eq_flatten {γ : Type} (B : List γ) :
    ∀ m : Nat, (List.range m).flatMap (fun _ => B)
      = (List.replicate m B).flatten := by
  intro m
  induction m with
  | zero => rfl
  | succ m ih =>
    rw [List.range_succ, List.flatMap_append, ih, List.replicate_succ',
      List.flatten_append]
    simp

theorem range_flatMap_const_succ {γ : Type} (m : Nat) (B : List γ) :
    (List.range (m + 1)).flatMap (fun _ => B)
      = B ++ (List.range m).flatMap (fun _ => B) := by
  rw [range_flatMap_const_eq_flatten, List.replicate_succ, List.flatten_cons,
    ← range_flatMap_const_eq_flatten]

/-- The row tuples of the slow (`from_arrays`) path of
`_make_concat_multiindex`: zipping the repeated keys with the concatenated
indexes pairs each group key with that group's own labels, in order. -/
theorem slowpath_rows : ∀ (ks : List Int) (idxs : List (List Int)),
    ks.length = idxs.length →
    ((ks.zip idxs).flatMap (fun ki => List.replicate ki.2.length ki.1)).zip
      (idxs.flatMap (fun x => x))
    = (ks.zip idxs).flatMap (fun ki => ki.2.map (fun lbl => (ki.1, lbl))) := by
  intro ks
  induction ks with
  | nil => intro idxs _; simp
  | cons k rest ih =>
    intro idxs h
    cases idxs with
    | nil => simp at h
    | cons idx ridx =>
      rw [List.zip_cons_cons, List.flatMap_cons, List.flatMap_cons,
        List.flatMap_cons,
        List.zip_append (by rw [List.length_replicate]),
        zip_replicate_left,
        ih ridx (by
          rw [List.length_cons, List.length_cons] at h
          omega)]

theorem fast_block (ids e : List Int) (q : Nat) :
    ((List.replicate e.length q).zip (List.range e.length)).map
      (fun ml => (ids.getD ml.1 0, e.getD ml.2 0))
    = e.map (fun lbl => (ids.getD q 0, lbl)) := by
  apply List.ext_getElem
  · rw [List.length_map, List.length_zip, List.length_replicate,
      List.length_range, List.length_map]
    omega
  · intro j h1 h2
    rw [List.length_map, List.length_zip, List.length_replicate,
      List.length_range] at h1
    have hj : j < e.length := by omega
    rw [List.getElem_map, List.getElem_map, List.getElem_zip,
      List.getElem_replicate, List.getElem_range]
    rw [List.getD_eq_getElem e 0 hj]

/-- The row tuples of the fast path of `_make_concat_multiindex`. -/
theorem fastpath_rows (ks ids e : List Int) :
    (((ks.map (fun k => ids.indexOf k)).flatMap
        (fun m => List.replicate e.length m)).zip
      ((List.range ks.length).flatMap (fun _ => List.range e.length))).map
      (fun ml => (ids.getD ml.1 0, e.getD ml.2 0))
    = ks.flatMap (fun k => e.map (fun lbl => (ids.getD (ids.indexOf k) 0, lbl))) := by
  induction ks with
  | nil => rfl
  | cons k rest ih =>
    rw [List.map_cons, List.flatMap_cons, List.length_cons,
      range_flatMap_const_succ,
      List.zip_append (by rw [List.length_replicate, List.length_range]),
      List.map_append, fast_block, ih, List.flatMap_cons]

theorem zip_flatMap_const (ks : List Int) (idxs : List (List Int)) (e : List Int)
    (hlen : ks.length = idxs.length) (hall : ∀ idx ∈ idxs, idx = e) :
    (ks.zip idxs).flatMap (fun ki => ki.2.map (fun lbl => (ki.1, lbl)))
      = ks.flatMap (fun k => e.map (fun lbl => (k, lbl))) := by
  induction ks generalizing idxs with
  | nil => simp
  | cons k rest ih =>
    cases idxs with
    | nil => simp at hlen
    | cons idx ridx =>
      rw [List.zip_cons_cons, List.flatMap_cons, List.flatMap_cons,
        hall idx (List.mem_cons_self idx ridx),
        ih ridx (by
          rw [List.length_cons, List.length_cons] at hlen
          omega) (fun i hi => hall i (List.mem_cons_of_mem idx hi))]

/-- Both paths of `_make_concat_multiindex` produce the same row tuples:
each group's key prepended above that group's own index, groups in
iteration order. -/
theorem make_concat_multiindex_rows (keys : List Int)
    (indexes : List (List Int)) (ids : List Int)
    (hlen : keys.length = indexes.length) (hk : ∀ k ∈ keys, k ∈ ids) :
    make_concat_multiindex indexes keys ids
      = (keys.zip indexes).flatMap
          (fun ki => ki.2.map (fun lbl => (ki.1, lbl))) := by
  unfold make_concat_multiindex
  by_cases hsame : all_indexes_same indexes = true
  · rw [if_pos hsame]
    have hall : ∀ idx ∈ indexes, idx = indexes.headD [] := by
      intro idx hidx
      exact beq_iff_eq.mp (List.all_eq_true.mp hsame idx hidx)
    rw [← hlen, fastpath_rows keys ids (indexes.headD []),
      zip_flatMap_const keys indexes (indexes.headD []) hlen hall]
    apply flatMap_congr_left
    intro k hkk
    have hlt : ids.indexOf k < ids.length :=
      List.indexOf_lt_length.mpr (hk k hkk)
    rw [List.getD_eq_getElem _ _ hlt, List.getElem_indexOf hlt]
  · rw [if_neg hsame]
    exact slowpath_rows keys indexes hlen

/-- C4: for every apply over tabular per-group results, the combine is
hierarchical exactly when some group's result index does not match that
group (`not_indexed_same`): in that case the group keys are prepended as
the outer index level above each result's own index (rows in iteration
order); when every result is index-matching, the results are concatenated
directly in iteration order with no added key level, and the concatenation
is reindexed to the original axis. -/
theorem C4_apply_combine_hierarchy_or_direct (obj : PFrame)
    (grouper : Int → Option Int) (func : PFrame → PFrame) :
    ((frameGroupKeys obj grouper).any
        (fun k => !(frameIndexedLike (func (frame_get_group obj grouper k))
          (frame_get_group obj grouper k))) = false
      ↔ ∀ k ∈ frameGroupKeys obj grouper,
          frameIndexedLike (func (frame_get_group obj grouper k))
            (frame_get_group obj grouper k) = true)
    ∧ ((∃ k ∈ frameGroupKeys obj grouper,
          frameIndexedLike (func (frame_get_group obj grouper k))
            (frame_get_group obj grouper k) = false) →
        python_apply_general obj grouper func
          = CombinedFrames.hier
              ((frameGroupKeys obj grouper).flatMap
                (fun k => (func (frame_get_group obj grouper k)).index.map
                  (fun lbl => (k, lbl))))
              (((frameGroupKeys obj grouper).map
                (fun k => func (frame_get_group obj grouper k))).headD
                ⟨[], [], []⟩).columns
              (((frameGroupKeys obj grouper).map
                (fun k => func (frame_get_group obj grouper k))).flatMap
                (fun f => f.rows)))
    ∧ ((∀ k ∈ frameGroupKeys obj grouper,
          frameIndexedLike (func (frame_get_group obj grouper k))
            (frame_get_group obj grouper k) = true) →
        python_apply_general obj grouper func
          = concat_frames
              ((frameGroupKeys obj grouper).map
                (fun k => func (frame_get_group obj grouper k))) obj.index
        ∧ concat_frames
              ((frameGroupKeys obj grouper).map
                (fun k => func (frame_get_group obj grouper k))) obj.index
          = CombinedFrames.flat obj.index
              (((frameGroupKeys obj grouper).map
                (fun k => func (frame_get_group obj grouper k))).headD
                ⟨[], [], []⟩).columns
              (obj.index.map (fun lbl =>
                ((((frameGroupKeys obj grouper).map
                    (fun k => func (frame_get_group obj grouper k))).flatMap
                  (fun f => f.index)).indexOf? lbl).bind
                  (fun p => (((frameGroupKeys obj grouper).map
                    (fun k => func (frame_get_group obj grouper k))).flatMap
                  (fun f => f.rows))[p]?)))) := by
  refine ⟨?_, ?_, ?_⟩
  · rw [List.any_eq_false]
    constructor
    · intro h k hk
      have := h k hk
      simpa using this
    · intro h k hk
      simp [h k hk]
  · rintro ⟨k0, hk0, hk0f⟩
    have hany : (frameGroupKeys obj grouper).any
        (fun k => !(frameIndexedLike (func (frame_get_group obj grouper k))
          (frame_get_group obj grouper k))) = true :=
      List.any_eq_true.mpr ⟨k0, hk0, by simp [hk0f]⟩
    show wrap_frames obj grouper (frameGroupKeys obj grouper)
      ((frameGroupKeys obj grouper).map
        (fun k => func (frame_get_group obj grouper k)))
      ((frameGroupKeys obj grouper).any
        (fun k => !(frameIndexedLike (func (frame_get_group obj grouper k))
          (frame_get_group obj grouper k)))) = _
    rw [hany]
    unfold wrap_frames
    rw [if_pos rfl]
    unfold concat_frames_hierarchical
    congr 1
    rw [List.map_map]
    simp only [Function.comp_def]
    rw [make_concat_multiindex_rows (frameGroupKeys obj grouper)
      ((frameGroupKeys obj grouper).map
        (fun k => (func (frame_get_group obj grouper k)).index))
      (frameGroupKeys obj grouper)
      (by rw [List.length_map]) (fun k hk => hk)]
    rw [zip_self_map, List.flatMap_map]
  · intro hall
    have hany : (frameGroupKeys obj grouper).any
        (fun k => !(frameIndexedLike (func (frame_get_group obj grouper k))
          (frame_get_group obj grouper k))) = false :=
      List.any_eq_false.mpr (fun k hk => by simp [hall k hk])
    constructor
    · show wrap_frames obj grouper (frameGroupKeys obj grouper)
        ((frameGroupKeys obj grouper).map
          (fun k => func (frame_get_group obj grouper k)))
        ((frameGroupKeys obj grouper).any
          (fun k => !(frameIndexedLike (func (frame_get_group obj grouper k))
            (frame_get_group obj grouper k)))) = _
      rw [hany]
      unfold wrap_frames
      rw [if_neg (by simp)]
    · rfl

/-- A three-row, one-column frame for exercising the apply combine. -/
def demoFrame : PFrame := ⟨[0, 1, 2], [100], [[1], [2], [3]]⟩

/-- Labels `0, 1` map to key `0`, label `2` to key `1`. -/
def demoFrameGrouper : Int → Option Int :=
  fun lbl => if lbl ≤ 1 then some 0 else some 1

/-- A heterogeneous apply function: every group yields the same one-row
frame, whose index matches no group's own index. -/
def demoConstFunc : PFrame → PFrame := fun _ => ⟨[7], [100], [[9]]⟩

/-- Witness for C4: the misaligned constant function triggers the
hierarchical combine, and the group keys `0, 1` are prepended above each
result's own index `[7]`. -/
theorem C4_apply_combine_hierarchy_or_direct_witness :
    python_apply_general demoFrame demoFrameGrouper demoConstFunc
      = CombinedFrames.hier [(0, 7), (1, 7)] [100] [[9], [9]] := by
  rw [(C4_apply_combine_hierarchy_or_direct demoFrame demoFrameGrouper
    demoConstFunc).2.1 ⟨0, by decide, by decide⟩]
  rfl
